import Mathlib

/-!
Verification of the script-blueprint-generator core logic.

The definitions below are a shallow embedding of the generation engine in
src/src/App.tsx: snippet/blueprint data model, placeholder substitution
(processSnippetCode), heuristic syntax validation (validateSyntax), the
script assembly (generateScript), blueprint list operations
(addBlueprint, removeBlueprint, reorderBlueprints, handleDrop) and the
custom-snippet catalog operation (addCustomSnippet).  Strings are
modelled through their character lists; JavaScript objects whose key
order matters (customParams, globalConfig) are modelled as association
lists in insertion order, matching Object.entries order for the
non-numeric keys this application uses.
-/

namespace ScriptGen

/-- The placeholder delimiter character of the snippet templates. -/
def pct : Char := '%'

/-- An opening curly brace (written by code point to keep brace characters
out of string literals). -/
def lbrace : Char := Char.ofNat 123

/-- A closing curly brace. -/
def rbrace : Char := Char.ofNat 125

/-- Embedding of the Snippet interface of App.tsx. -/
structure Snippet where
  id : String
  name : String
  description : String
  category : String
  code : String
  parameters : List String
  isCustom : Bool
deriving DecidableEq, Repr

/-- Embedding of the Blueprint interface of App.tsx.  The customParams
record is an association list in insertion order. -/
structure Blueprint where
  id : String
  snippet : Snippet
  order : Nat
  customParams : List (String × String)
deriving DecidableEq, Repr

/-- One entry of the GlobalConfig record: name, label and value. -/
structure ConfigVar where
  name : String
  label : String
  value : String
deriving DecidableEq, Repr

/-- The GlobalConfig record of App.tsx, as an association list from the
generated key to the variable, in insertion order. -/
abbrev GlobalConfig := List (String × ConfigVar)

/-- Fuel-driven worker for replaceAll; the fuel is an upper bound on the
length of the scanned list, so the branch returning the list at zero fuel
is never reached from replaceAll. -/
def replaceAllAux (pat rep : List Char) : Nat → List Char → List Char
  | _, [] => []
  | 0, s => s
  | fuel + 1, c :: cs =>
    if pat.isPrefixOf (c :: cs) ∧ pat ≠ [] then
      rep ++ replaceAllAux pat rep fuel (cs.drop (pat.length - 1))
    else
      c :: replaceAllAux pat rep fuel cs

/-- Literal global replacement over character lists: the embedding of the
JavaScript processedCode.replace(new RegExp(placeholder, g), value) calls
for the literal placeholder patterns this application builds (plain
identifier keys between two percent signs, no regex metacharacters).
Leftmost occurrences are replaced and the replacement text is not
rescanned, exactly as a global regex replace proceeds. -/
def replaceAll (pat rep s : List Char) : List Char :=
  replaceAllAux pat rep s.length s

/-- String wrapper around replaceAll. -/
def strReplaceAll (pat rep s : String) : String :=
  String.mk (replaceAll pat.data rep.data s.data)

/-- The placeholder text built for a key, percent-key-percent. -/
def placeholder (key : String) : String :=
  String.mk (pct :: key.data ++ [pct])

/-- Embedding of processSnippetCode (App.tsx lines 355-371): one
replacement pass per entry of the parameter override mapping, in entry
order, followed by one replacement pass per entry of the global
configuration, in entry order. -/
def processSnippetCode (code : String) (params : List (String × String))
    (config : GlobalConfig) : String :=
  let afterParams :=
    params.foldl (fun acc kv => strReplaceAll (placeholder kv.fst) kv.snd acc) code
  config.foldl (fun acc kc => strReplaceAll (placeholder kc.fst) kc.snd.value acc)
    afterParams

/-- Number of occurrences of a character in a string. -/
def countChar (c : Char) (s : String) : Nat := s.data.count c

/-- Boolean substring occurrence test on character lists. -/
def occursIn (pat : List Char) : List Char → Bool
  | [] => pat.isEmpty
  | c :: cs => pat.isPrefixOf (c :: cs) || occursIn pat cs

/-- Embedding of the JavaScript code.includes(pat) test. -/
def containsSub (s pat : String) : Bool := occursIn pat.data s.data

/-- Embedding of validateSyntax (App.tsx lines 327-353): brace and
parenthesis counts, then the two literal substring checks, in this fixed
order. -/
def validateSyntax (code : String) : List String :=
  (if countChar lbrace code ≠ countChar rbrace code then ["Mismatched curly braces"] else [])
    ++ (if countChar '(' code ≠ countChar ')' code then ["Mismatched parentheses"] else [])
    ++ (if containsSub code "function(" then ["Missing space after function keyword"] else [])
    ++ (if containsSub code "if(" then ["Missing space after if keyword"] else [])

/-- The newSnippet form state feeding addCustomSnippet. -/
structure NewSnippetForm where
  name : String
  description : String
  category : String
  code : String
  parameters : String
deriving DecidableEq, Repr

/-- Embedding of the JavaScript split on a single separator character:
splitting the empty string yields one empty field, and n separators yield
n + 1 fields. -/
def splitOnChar (sep : Char) : List Char → List (List Char)
  | [] => [[]]
  | c :: cs =>
    match splitOnChar sep cs with
    | [] => [[c]]
    | r :: rs => if c = sep then [] :: r :: rs else (c :: r) :: rs

/-- The whitespace test of the JavaScript String.prototype.trim, at the
ASCII characters this application can meet. -/
def isJsWhite (c : Char) : Bool :=
  c = ' ' || c = Char.ofNat 9 || c = Char.ofNat 10 || c = Char.ofNat 11
    || c = Char.ofNat 12 || c = Char.ofNat 13

/-- Embedding of the JavaScript trim on character lists: strip leading and
trailing whitespace. -/
def trimChars (s : List Char) : List Char :=
  ((s.dropWhile isJsWhite).reverse.dropWhile isJsWhite).reverse

/-- Embedding of the parameter list construction of addCustomSnippet:
split on commas, trim every entry, keep the truthy (nonempty) ones. -/
def splitParams (s : String) : List String :=
  (((splitOnChar ',' s.data).map (fun p => String.mk (trimChars p))).filter
    (fun p => p ≠ ""))

/-- Embedding of addCustomSnippet (App.tsx lines 432-460).  The guard is
the JavaScript falsiness test on name and code, which for strings is
emptiness without trimming.  Returns the new catalog and whether the
snippet was accepted. -/
def addCustomSnippet (form : NewSnippetForm) (freshId : String)
    (catalog : List Snippet) : List Snippet × Bool :=
  if form.name = "" ∨ form.code = "" then (catalog, false)
  else
    (catalog ++ [⟨freshId, form.name, form.description, form.category, form.code,
      splitParams form.parameters, true⟩], true)

/-- Embedding of addBlueprint (App.tsx lines 289-301): append a blueprint
whose order is the current list length, with an empty override mapping. -/
def addBlueprint (snippet : Snippet) (freshId : String) (l : List Blueprint) :
    List Blueprint :=
  l ++ [⟨freshId, snippet, l.length, []⟩]

/-- Embedding of removeBlueprint (App.tsx lines 303-309): keep the entries
whose id differs; remaining order fields are not renumbered. -/
def removeBlueprint (blueprintId : String) (l : List Blueprint) : List Blueprint :=
  l.filter (fun bp => bp.id ≠ blueprintId)

/-- Rewrite the order field of one blueprint. -/
def setOrder (n : Nat) (bp : Blueprint) : Blueprint :=
  ⟨bp.id, bp.snippet, n, bp.customParams⟩

/-- Rewrite every order field to its array index, starting at n: the
embedding of newBlueprints.map((bp, index) => (... order: index)). -/
def reindexFrom (n : Nat) : List Blueprint → List Blueprint
  | [] => []
  | bp :: bps => setOrder n bp :: reindexFrom (n + 1) bps

/-- Embedding of reorderBlueprints (App.tsx lines 317-325): splice the
dragged element out, splice it back in at the hover index, then rewrite
every order field to its new array index.  For an out-of-range drag index
(never produced by the UI) the list is returned unchanged. -/
def reorderBlueprints (dragIndex hoverIndex : Nat) (l : List Blueprint) :
    List Blueprint :=
  match l[dragIndex]? with
  | none => l
  | some dragged => reindexFrom 0 ((l.eraseIdx dragIndex).insertIdx hoverIndex dragged)

/-- Embedding of the drop handler (App.tsx lines 528-535): reorder only
when the drag index differs from the drop index. -/
def handleDrop (dragIndex dropIndex : Nat) (l : List Blueprint) : List Blueprint :=
  if dragIndex ≠ dropIndex then reorderBlueprints dragIndex dropIndex l else l

/-- Insertion into a list sorted by order, placing the new element before
the first entry of greater-or-equal order. -/
def insertByOrder (b : Blueprint) : List Blueprint → List Blueprint
  | [] => [b]
  | c :: cs => if b.order ≤ c.order then b :: c :: cs else c :: insertByOrder b cs

/-- Stable sort by the order field: the embedding of
[...blueprints].sort((a, b) => a.order - b.order), which the JavaScript
specification guarantees to be a stable sort under this consistent
comparator. -/
def sortBlueprints : List Blueprint → List Blueprint
  | [] => []
  | b :: bs => insertByOrder b (sortBlueprints bs)

/-- Lower-case hexadecimal digit, as JSON.stringify escapes produce. -/
def hexDigit (n : Nat) : Char :=
  if n < 10 then Char.ofNat (48 + n) else Char.ofNat (87 + n)

/-- JSON string escaping of one character, as JSON.stringify performs it:
quote, backslash, the short control escapes, and u-escapes for the other
control characters. -/
def jsonEscapeChar (c : Char) : List Char :=
  if c = '"' then ['\\', '"']
  else if c = '\\' then ['\\', '\\']
  else if c = Char.ofNat 8 then ['\\', 'b']
  else if c = Char.ofNat 9 then ['\\', 't']
  else if c = Char.ofNat 10 then ['\\', 'n']
  else if c = Char.ofNat 12 then ['\\', 'f']
  else if c = Char.ofNat 13 then ['\\', 'r']
  else if c.toNat < 32 then
    ['\\', 'u', '0', '0', hexDigit (c.toNat / 16), hexDigit (c.toNat % 16)]
  else [c]

/-- A JSON string literal for s. -/
def jsonString (s : String) : String :=
  String.mk ('"' :: s.data.flatMap jsonEscapeChar ++ ['"'])

/-- One entry of the serialized configuration object, at the indentation
JSON.stringify(obj, null, 2) produces. -/
def configVarJson (kv : String × ConfigVar) : String :=
  "  " ++ jsonString kv.fst ++ ": \x7b\n    \"name\": " ++ jsonString kv.snd.name
    ++ ",\n    \"label\": " ++ jsonString kv.snd.label
    ++ ",\n    \"value\": " ++ jsonString kv.snd.value ++ "\n  \x7d"

/-- JSON.stringify of the mapping key to name/label/value, with two-space
indentation, as generateScript builds it. -/
def configJson (config : GlobalConfig) : String :=
  if config = [] then "\x7b\x7d"
  else "\x7b\n" ++ String.intercalate ",\n" (config.map configVarJson) ++ "\n\x7d"

/-- Embedding of the configLine of generateScript (App.tsx lines 386-396):
the header declaration when the configuration is non-empty, the empty
string otherwise. -/
def configLine (config : GlobalConfig) : String :=
  if config = [] then "" else "var config = " ++ configJson config ++ ";"

/-- The three emitted lines of one blueprint: comment with name and
description, processed code body, blank separator. -/
def blockOf (config : GlobalConfig) (bp : Blueprint) : List String :=
  ["// " ++ bp.snippet.name ++ " - " ++ bp.snippet.description,
   processSnippetCode bp.snippet.code bp.customParams config,
   ""]

/-- Embedding of the scriptParts array of generateScript (App.tsx lines
398-416), before joining: the fixed banner, the timestamp line (the
timestamp string is a parameter of the embedding), a blank line, the
configLine, the conditional blank-or-null entry, then the blueprint
blocks in sorted order; null entries are filtered out. -/
def generateScriptParts (ts : String) (bps : List Blueprint)
    (config : GlobalConfig) : List String :=
  ([some "// Generated Script from Blueprint Generator",
    some ("// Generated on: " ++ ts),
    some "",
    some (configLine config),
    if configLine config ≠ "" then some "" else none]
    ++ (((sortBlueprints bps).map (blockOf config)).flatten).map some).filterMap id

/-- The generated script text: the parts joined with newlines. -/
def generateScript (ts : String) (bps : List Blueprint)
    (config : GlobalConfig) : String :=
  String.intercalate "\n" (generateScriptParts ts bps config)

/-- The pieces of App state read and written by generateScript. -/
structure AppState where
  blueprints : List Blueprint
  globalConfig : GlobalConfig
  generatedScript : String
  syntaxErrors : List String
deriving DecidableEq, Repr

/-- A toast notification: title, description, destructive flag. -/
structure Toast where
  title : String
  description : String
  destructive : Bool
deriving DecidableEq, Repr

/-- Embedding of the generateScript callback as a state transition
(App.tsx lines 373-430): an empty blueprint list is rejected with a
destructive notice and no state change; otherwise the script is built,
validated, and both generatedScript and syntaxErrors are overwritten. -/
def generateScriptStep (ts : String) (s : AppState) : AppState × Toast :=
  if s.blueprints = [] then
    (s, ⟨"No Blueprints", "Add some blueprints to generate a script.", true⟩)
  else
    let script := generateScript ts s.blueprints s.globalConfig
    let errors := validateSyntax script
    (⟨s.blueprints, s.globalConfig, script, errors⟩,
     ⟨if errors ≠ [] then "Script Generated with Warnings" else "Script Generated",
      "Generated script with " ++ toString s.blueprints.length ++ " blueprints"
        ++ (if errors ≠ [] then " (" ++ toString errors.length ++ " warnings)" else "")
        ++ ".",
      errors ≠ []⟩)

/-- The fixed banner lines and configuration header region of the
generated parts list, as a reusable abbreviation for the theorems. -/
def scriptPreamble (ts : String) (config : GlobalConfig) : List String :=
  ["// Generated Script from Blueprint Generator", "// Generated on: " ++ ts, ""]
    ++ (if config = [] then [""] else [configLine config, ""])

/-- A blueprint with its order field erased, to state which facts hold of
the underlying sequence independently of the renumbering. -/
def eraseOrder (bp : Blueprint) : Blueprint := setOrder 0 bp

/-- A minimal concrete snippet for closed witness computations. -/
def demoSnippet (n : String) : Snippet := ⟨n, n, "demo", "Custom", "x = 1", [], false⟩

/-- The blueprint list reached by Add, Add, Remove of the first entry,
then Add, with the embedded operations. -/
def dupOrderState : List Blueprint :=
  addBlueprint (demoSnippet "s3") "b3"
    (removeBlueprint "b1"
      (addBlueprint (demoSnippet "s2") "b2"
        (addBlueprint (demoSnippet "s1") "b1" [])))

/-- Join a run decomposition back into a character list, with one percent
sign between adjacent runs: joinRuns [a, b, c] is a percent b percent c.
A template whose percent signs all delimit placeholders is exactly a
joinRuns of percent-free runs. -/
def joinRuns : List (List Char) → List Char
  | [] => []
  | [r] => r
  | r :: r' :: rest => r ++ pct :: joinRuns (r' :: rest)

/-- Prepend text onto the first run of a decomposition. -/
def consCat (x : List Char) : List (List Char) → List (List Char)
  | [] => [x]
  | h :: t => (x ++ h) :: t

/-- The run-level image of one global replacement pass for the key k with
value v: every interior run equal to k is replaced by v and its two
delimiting percent signs are consumed, merging it with its neighbour
runs, scanning left to right exactly as replaceAll does. -/
def substRunsL (k v : List Char) : List (List Char) → List (List Char)
  | [] => []
  | [r] => [r]
  | [r, r'] => [r, r']
  | r :: r' :: r'' :: rest =>
    if r' = k then consCat (r ++ v) (substRunsL k v (r'' :: rest))
    else r :: substRunsL k v (r' :: r'' :: rest)

/-- All replacement passes, run level, in entry order. -/
def substAll (entries : List (List Char × List Char)) (runs : List (List Char)) :
    List (List Char) :=
  entries.foldl (fun rs kv => substRunsL kv.fst kv.snd rs) runs

/-- All replacement passes, character level, in entry order. -/
def applyEntriesC (entries : List (List Char × List Char)) (s : List Char) :
    List Char :=
  entries.foldl (fun acc kv => replaceAll (pct :: kv.fst ++ [pct]) kv.snd acc) s

/-- A parameter override entry at character level. -/
def entryData (kv : String × String) : List Char × List Char :=
  (kv.fst.data, kv.snd.data)

/-- A configuration entry at character level: the key with the value
field of the variable. -/
def configEntryData (kc : String × ConfigVar) : List Char × List Char :=
  (kc.fst.data, kc.snd.value.data)

/-- The full replacement sequence of processSnippetCode: the override
entries followed by the configuration entries. -/
def allEntries (params : List (String × String)) (config : GlobalConfig) :
    List (List Char × List Char) :=
  params.map entryData ++ config.map configEntryData

/-- The runs strictly between the first and the last run: exactly the
runs flanked by a percent sign on both sides in joinRuns. -/
def interiorRuns (runs : List (List Char)) : List (List Char) :=
  (runs.drop 1).dropLast

/-- How many interior runs equal the key w: the number of occurrences of
the placeholder of w in joinRuns of percent-free runs. -/
def countKey (w : List Char) (runs : List (List Char)) : Nat :=
  (interiorRuns runs).countP (fun r => r = w)

/-- No two adjacent runs both belong to the key set K: the non-overlap
side condition under which every placeholder occurrence keeps both its
delimiters to itself. -/
def sepOK (K : List (List Char)) : List (List Char) → Bool
  | [] => true
  | [_] => true
  | a :: b :: rest => (!(decide (a ∈ K) && decide (b ∈ K))) && sepOK K (b :: rest)

/-- replaceAllAux ignores the fuel on the empty list. -/
theorem replaceAllAux_nil (pat rep : List Char) (f : Nat) :
    replaceAllAux pat rep f [] = [] := by
  cases f <;> rfl

/-- The fuel of replaceAllAux is irrelevant once it covers the length of
the scanned list. -/
theorem replaceAllAux_fuel (pat rep : List Char) :
    ∀ (f₁ f₂ : Nat) (s : List Char), s.length ≤ f₁ → s.length ≤ f₂ →
      replaceAllAux pat rep f₁ s = replaceAllAux pat rep f₂ s := by
  intro f₁
  induction f₁ with
  | zero =>
    intro f₂ s h₁ _
    have hs : s = [] := by
      cases s with
      | nil => rfl
      | cons c cs => simp at h₁
    subst hs
    simp [replaceAllAux_nil]
  | succ n ih =>
    intro f₂ s h₁ h₂
    cases s with
    | nil => simp [replaceAllAux_nil]
    | cons c cs =>
      cases f₂ with
      | zero => simp at h₂
      | succ m =>
        simp only [replaceAllAux]
        split
        · have h₁l : (cs.drop (pat.length - 1)).length ≤ n := by
            have := List.length_drop (pat.length - 1) cs
            simp only [List.length_cons] at h₁
            omega
          have h₂l : (cs.drop (pat.length - 1)).length ≤ m := by
            have := List.length_drop (pat.length - 1) cs
            simp only [List.length_cons] at h₂
            omega
          rw [ih _ _ h₁l h₂l]
        · have h₁l : cs.length ≤ n := by
            simp only [List.length_cons] at h₁; omega
          have h₂l : cs.length ≤ m := by
            simp only [List.length_cons] at h₂; omega
          rw [ih _ _ h₁l h₂l]

/-- replaceAll on the empty list. -/
theorem replaceAll_nil (pat rep : List Char) : replaceAll pat rep [] = [] := rfl

/-- replaceAll when the pattern matches at the head: emit the replacement
and continue after the matched text, which is not rescanned. -/
theorem replaceAll_cons_pos (pat rep : List Char) (c : Char) (cs : List Char)
    (h₁ : pat.isPrefixOf (c :: cs) = true) (h₂ : pat ≠ []) :
    replaceAll pat rep (c :: cs) = rep ++ replaceAll pat rep (cs.drop (pat.length - 1)) := by
  show replaceAllAux pat rep (c :: cs).length (c :: cs) = _
  simp only [List.length_cons, replaceAllAux, if_pos (And.intro h₁ h₂)]
  congr 1
  apply replaceAllAux_fuel
  · have := List.length_drop (pat.length - 1) cs
    omega
  · exact Nat.le_refl _

/-- replaceAll when the pattern does not match at the head: keep the
character and continue. -/
theorem replaceAll_cons_neg (pat rep : List Char) (c : Char) (cs : List Char)
    (h : ¬(pat.isPrefixOf (c :: cs) = true ∧ pat ≠ [])) :
    replaceAll pat rep (c :: cs) = c :: replaceAll pat rep cs := by
  show replaceAllAux pat rep (c :: cs).length (c :: cs) = _
  simp only [List.length_cons, replaceAllAux, if_neg h]
  rfl

/-- Bridge between the Boolean prefix test and the prefix relation. -/
theorem isPrefixOf_eq_true_iff (l₁ l₂ : List Char) :
    l₁.isPrefixOf l₂ = true ↔ l₁ <+: l₂ :=
  List.isPrefixOf_iff_prefix

/-- A pattern starting with a percent sign never matches while scanning
percent-free text: the scan passes straight through it. -/
theorem replaceAll_skip (q rep : List Char) :
    ∀ (r t : List Char), (∀ c ∈ r, c ≠ pct) →
      replaceAll (pct :: q) rep (r ++ t) = r ++ replaceAll (pct :: q) rep t := by
  intro r
  induction r with
  | nil => intro t _; rfl
  | cons c r' ih =>
    intro t hfree
    have hc : c ≠ pct := hfree c (List.mem_cons_self c r')
    have hpre : (pct :: q).isPrefixOf (c :: (r' ++ t)) = false := by
      simp only [List.isPrefixOf, Bool.and_eq_false_iff]
      left
      simp only [beq_eq_false_iff_ne, ne_eq]
      exact fun he => hc he.symm
    rw [List.cons_append, replaceAll_cons_neg _ _ _ _ (by simp [hpre]),
      ih t (fun d hd => hfree d (List.mem_cons_of_mem c hd))]
    rfl

/-- replaceAll with a percent-headed pattern leaves percent-free text
unchanged. -/
theorem replaceAll_free (q rep r : List Char) (hfree : ∀ c ∈ r, c ≠ pct) :
    replaceAll (pct :: q) rep r = r := by
  have := replaceAll_skip q rep r [] hfree
  simpa [replaceAll_nil] using this

/-- A key-with-closing-delimiter pattern is never a prefix of percent-free
text. -/
theorem not_prefixOf_free (k : List Char) :
    ∀ (r : List Char), (∀ c ∈ r, c ≠ pct) → (k ++ [pct]).isPrefixOf r = false := by
  induction k with
  | nil =>
    intro r hr
    cases r with
    | nil => rfl
    | cons c cs =>
      simp only [List.nil_append, List.isPrefixOf, Bool.and_eq_false_iff]
      left
      simp only [beq_eq_false_iff_ne, ne_eq]
      exact fun he => hr c (List.mem_cons_self c cs) he.symm
  | cons a k' ih =>
    intro r hr
    cases r with
    | nil => rfl
    | cons c cs =>
      simp only [List.cons_append, List.isPrefixOf, Bool.and_eq_false_iff]
      by_cases hac : a = c
      · right
        exact ih cs (fun d hd => hr d (List.mem_cons_of_mem c hd))
      · left
        simp only [beq_eq_false_iff_ne, ne_eq]
        exact hac

/-- A key-with-closing-delimiter pattern never matches at a percent-free
run different from the key, even with a percent sign and arbitrary text
following the run. -/
theorem not_prefixOf_key :
    ∀ (k r : List Char), pct ∉ k → (∀ c ∈ r, c ≠ pct) → r ≠ k →
      ∀ (t : List Char), (k ++ [pct]).isPrefixOf (r ++ pct :: t) = false := by
  intro k
  induction k with
  | nil =>
    intro r _ hr hne t
    cases r with
    | nil => exact absurd rfl hne
    | cons c cs =>
      simp only [List.nil_append, List.cons_append, List.isPrefixOf,
        Bool.and_eq_false_iff]
      left
      simp only [beq_eq_false_iff_ne, ne_eq]
      exact fun he => hr c (List.mem_cons_self c cs) he.symm
  | cons a k' ih =>
    intro r hk hr hne t
    cases r with
    | nil =>
      simp only [List.nil_append, List.cons_append, List.isPrefixOf,
        Bool.and_eq_false_iff]
      left
      simp only [beq_eq_false_iff_ne, ne_eq]
      exact fun he => hk (he ▸ List.mem_cons_self a k')
    | cons c cs =>
      simp only [List.cons_append, List.isPrefixOf, Bool.and_eq_false_iff]
      by_cases hac : a = c
      · right
        refine ih cs (fun hm => hk (List.mem_cons_of_mem a hm))
          (fun d hd => hr d (List.mem_cons_of_mem c hd)) ?_ t
        intro he
        exact hne (by rw [he, hac])
      · left
        simp only [beq_eq_false_iff_ne, ne_eq]
        exact hac

/-- Elementwise form of percent-freeness. -/
theorem free_of_not_mem (r : List Char) (h : pct ∉ r) : ∀ c ∈ r, c ≠ pct :=
  fun _ hc he => h (he ▸ hc)

/-- joinRuns of a cons with a nonempty tail. -/
theorem joinRuns_cons_of_ne_nil (r : List Char) (t : List (List Char)) (h : t ≠ []) :
    joinRuns (r :: t) = r ++ pct :: joinRuns t := by
  cases t with
  | nil => exact absurd rfl h
  | cons r' rest => rfl

/-- joinRuns after prepending text onto the first run. -/
theorem joinRuns_consCat (x : List Char) (rs : List (List Char)) :
    joinRuns (consCat x rs) = x ++ joinRuns rs := by
  cases rs with
  | nil => simp [consCat, joinRuns]
  | cons h t =>
    cases t with
    | nil => simp [consCat, joinRuns]
    | cons h' t' => simp [consCat, joinRuns]

/-- substRunsL keeps a nonempty decomposition nonempty. -/
theorem substRunsL_ne_nil (k v : List Char) :
    ∀ (rs : List (List Char)), rs ≠ [] → substRunsL k v rs ≠ [] := by
  intro rs hne
  match rs with
  | [] => exact absurd rfl hne
  | [r] => simp [substRunsL]
  | [r, r'] => simp [substRunsL]
  | r :: r' :: r'' :: rest =>
    simp only [substRunsL]
    split
    · cases hrec : substRunsL k v (r'' :: rest) with
      | nil => simp [consCat]
      | cons a t => simp [consCat]
    · simp

/-- The one-pass correspondence: on a template that is a join of
percent-free runs, the literal global replacement of the placeholder of k
by v is exactly the run-level substitution substRunsL. -/
theorem replaceAll_joinRuns (k v : List Char) (hk : pct ∉ k) :
    ∀ (runs : List (List Char)), (∀ r ∈ runs, pct ∉ r) →
      replaceAll (pct :: (k ++ [pct])) v (joinRuns runs) = joinRuns (substRunsL k v runs)
  | [], _ => by
    simp [joinRuns, substRunsL, replaceAll_nil]
  | [r], h => by
    simp only [joinRuns, substRunsL]
    exact replaceAll_free _ v r (free_of_not_mem r (h r (by simp)))
  | [r, r'], h => by
    have hr : pct ∉ r := h r (by simp)
    have hr' : pct ∉ r' := h r' (by simp)
    simp only [substRunsL]
    rw [joinRuns_cons_of_ne_nil r [r'] (by simp)]
    rw [replaceAll_skip _ v r _ (free_of_not_mem r hr)]
    have hnp : (pct :: (k ++ [pct])).isPrefixOf (pct :: joinRuns [r']) = false := by
      simp only [List.isPrefixOf, Bool.and_eq_false_iff]
      right
      simpa [joinRuns] using not_prefixOf_free k r' (free_of_not_mem r' hr')
    rw [replaceAll_cons_neg _ _ _ _ (by simp [hnp])]
    simp only [joinRuns]
    rw [replaceAll_free _ v r' (free_of_not_mem r' hr')]
  | r :: r' :: r'' :: rest, h => by
    have hr : pct ∉ r := h r (by simp)
    have hr' : pct ∉ r' := h r' (by simp)
    have htail : ∀ x ∈ r' :: r'' :: rest, pct ∉ x := fun x hx => h x (by simp [hx])
    have htail2 : ∀ x ∈ r'' :: rest, pct ∉ x := fun x hx =>
      htail x (List.mem_cons_of_mem r' hx)
    rw [joinRuns_cons_of_ne_nil r (r' :: r'' :: rest) (by simp)]
    rw [replaceAll_skip _ v r _ (free_of_not_mem r hr)]
    rw [joinRuns_cons_of_ne_nil r' (r'' :: rest) (by simp)]
    by_cases hrk : r' = k
    · subst hrk
      have hpre : (pct :: (r' ++ [pct])).isPrefixOf
          (pct :: (r' ++ pct :: joinRuns (r'' :: rest))) = true := by
        simp only [List.isPrefixOf, Bool.and_eq_true, beq_self_eq_true, true_and]
        rw [List.append_cons r' pct (joinRuns (r'' :: rest))]
        exact (isPrefixOf_eq_true_iff _ _).mpr (List.prefix_append _ _)
      rw [replaceAll_cons_pos _ _ _ _ hpre (by simp)]
      have hdrop : (r' ++ pct :: joinRuns (r'' :: rest)).drop
          ((pct :: (r' ++ [pct])).length - 1) = joinRuns (r'' :: rest) := by
        rw [List.append_cons r' pct (joinRuns (r'' :: rest))]
        have hlen : (pct :: (r' ++ [pct])).length - 1 = (r' ++ [pct]).length := by
          simp
        rw [hlen, List.drop_left]
      rw [hdrop]
      rw [replaceAll_joinRuns r' v hk (r'' :: rest) htail2]
      simp only [substRunsL, if_pos rfl, eq_self_iff_true, if_true]
      rw [joinRuns_consCat]
      simp [List.append_assoc]
    · have hpre : (pct :: (k ++ [pct])).isPrefixOf
          (pct :: (r' ++ pct :: joinRuns (r'' :: rest))) = false := by
        simp only [List.isPrefixOf, Bool.and_eq_false_iff]
        right
        exact not_prefixOf_key k r' hk (free_of_not_mem r' hr') hrk _
      rw [replaceAll_cons_neg _ _ _ _ (by simp [hpre])]
      have hjoin : r' ++ pct :: joinRuns (r'' :: rest) = joinRuns (r' :: r'' :: rest) :=
        (joinRuns_cons_of_ne_nil r' (r'' :: rest) (by simp)).symm
      rw [hjoin, replaceAll_joinRuns k v hk (r' :: r'' :: rest) htail]
      simp only [substRunsL, if_neg hrk]
      rw [joinRuns_cons_of_ne_nil r _ (substRunsL_ne_nil k v (r' :: r'' :: rest) (by simp))]

/-- occursIn detects an explicitly present infix occurrence. -/
theorem occursIn_append (v : List Char) :
    ∀ (s t : List Char), occursIn v (s ++ v ++ t) = true := by
  intro s
  induction s with
  | nil =>
    intro t
    cases v with
    | nil =>
      cases t with
      | nil => rfl
      | cons c cs => simp [occursIn, List.isPrefixOf]
    | cons c cs =>
      show occursIn (c :: cs) ((c :: cs) ++ t) = true
      rw [List.cons_append]
      simp only [occursIn, Bool.or_eq_true]
      left
      rw [← List.cons_append]
      simp [isPrefixOf_eq_true_iff]
  | cons a s' ih =>
    intro t
    rw [List.cons_append, List.cons_append]
    simp only [occursIn, Bool.or_eq_true]
    right
    have := ih t
    simpa using this

/-- Text that does not contain v cannot be written with v as an infix. -/
theorem append_ne_of_not_occurs (v u : List Char) (h : occursIn v u = false)
    (x z : List Char) : x ++ (v ++ z) ≠ u := by
  intro he
  have hocc := occursIn_append v x z
  rw [List.append_assoc] at hocc
  rw [he, h] at hocc
  exact Bool.false_ne_true hocc

/-- countKey on the empty decomposition. -/
theorem countKey_nil (u : List Char) : countKey u [] = 0 := rfl

/-- countKey on a single run: no interior run. -/
theorem countKey_single (u r : List Char) : countKey u [r] = 0 := rfl

/-- countKey on two runs: no interior run. -/
theorem countKey_pair (u r r' : List Char) : countKey u [r, r'] = 0 := rfl

/-- countKey ignores the head run. -/
theorem countKey_cons_head (u a b : List Char) (t : List (List Char)) :
    countKey u (a :: t) = countKey u (b :: t) := rfl

/-- The head contribution of the second run, which is interior exactly
when a third run follows. -/
theorem countKey_cons₂ (u r h : List Char) (t : List (List Char)) :
    countKey u (r :: h :: t)
      = countKey u (h :: t) + (if t = [] then 0 else if h = u then 1 else 0) := by
  cases t with
  | nil => rfl
  | cons y ys =>
    simp only [countKey, interiorRuns, List.drop_succ_cons, List.drop_zero,
      List.dropLast_cons₂, List.countP_cons, if_neg (by simp : ¬(y :: ys = []))]
    by_cases hhu : h = u
    · simp [hhu]
    · simp [hhu]

/-- countKey can only grow when a run is prepended. -/
theorem countKey_le_cons (u b : List Char) (T : List (List Char)) :
    countKey u T ≤ countKey u (b :: T) := by
  cases T with
  | nil => exact Nat.le_refl 0
  | cons h t =>
    rw [countKey_cons₂ u b h t]
    have : countKey u (h :: t) ≥ countKey u t := by
      cases t with
      | nil => exact Nat.le_refl 0
      | cons x xs =>
        rw [countKey_cons₂ u h x xs]
        exact Nat.le_add_right _ _
    omega

/-- Prepending text onto the first run does not change the interior. -/
theorem interiorRuns_consCat (x : List Char) (rs : List (List Char)) :
    interiorRuns (consCat x rs) = interiorRuns rs := by
  cases rs with
  | nil => rfl
  | cons h t => rfl

/-- countKey is unchanged by consCat. -/
theorem countKey_consCat (u x : List Char) (rs : List (List Char)) :
    countKey u (consCat x rs) = countKey u rs := by
  simp only [countKey, interiorRuns_consCat]

/-- sepOK on the empty decomposition. -/
theorem sepOK_nil (K : List (List Char)) : sepOK K [] = true := rfl

/-- sepOK on a single run. -/
theorem sepOK_single (K : List (List Char)) (x : List Char) : sepOK K [x] = true := rfl

/-- Unfolding of sepOK over adjacent runs. -/
theorem sepOK_cons_cons (K : List (List Char)) (a b : List Char)
    (t : List (List Char)) :
    sepOK K (a :: b :: t) = true ↔ ¬(a ∈ K ∧ b ∈ K) ∧ sepOK K (b :: t) = true := by
  simp only [sepOK, Bool.and_eq_true, Bool.not_eq_true']
  constructor
  · rintro ⟨h₁, h₂⟩
    refine ⟨?_, h₂⟩
    intro ⟨ha, hb⟩
    simp [ha, hb] at h₁
  · rintro ⟨h₁, h₂⟩
    refine ⟨?_, h₂⟩
    by_cases ha : a ∈ K
    · by_cases hb : b ∈ K
      · exact absurd ⟨ha, hb⟩ h₁
      · simp [hb]
    · simp [ha]

/-- The shape of the first run after one substitution pass: either the
original first run survives (with a nonempty remainder when the input had
one), or it is merged into a run holding the substituted value, which can
only happen when the second run was the key. -/
theorem substRunsL_head_shape (k v a : List Char) (t : List (List Char)) :
    (∃ ys, substRunsL k v (a :: t) = a :: ys ∧ (t ≠ [] → ys ≠ [])) ∨
    ((∃ z ys, substRunsL k v (a :: t) = (a ++ (v ++ z)) :: ys) ∧
      ∃ c rest₂, t = k :: c :: rest₂) := by
  match t with
  | [] =>
    left
    exact ⟨[], rfl, fun h => absurd rfl h⟩
  | [b] =>
    left
    exact ⟨[b], rfl, fun _ => by simp⟩
  | b :: c :: rest =>
    by_cases hbk : b = k
    · right
      subst hbk
      refine ⟨?_, c, rest, rfl⟩
      have hne := substRunsL_ne_nil b v (c :: rest) (by simp)
      cases hrec : substRunsL b v (c :: rest) with
      | nil => exact absurd hrec hne
      | cons hh tt =>
        refine ⟨hh, tt, ?_⟩
        simp [substRunsL, hrec, consCat, List.append_assoc]
    · left
      refine ⟨substRunsL k v (b :: c :: rest), ?_, ?_⟩
      · simp [substRunsL, hbk]
      · intro _
        exact substRunsL_ne_nil k v (b :: c :: rest) (by simp)

/-- One pass for k removes every interior occurrence of k, provided the
value cannot recreate the key inside a merged run. -/
theorem countKey_substRunsL_self (k v : List Char) (hvk : occursIn v k = false) :
    ∀ (runs : List (List Char)), countKey k (substRunsL k v runs) = 0
  | [] => rfl
  | [_] => rfl
  | [_, _] => rfl
  | r :: r' :: r'' :: rest => by
    by_cases hrk : r' = k
    · simp only [substRunsL, if_pos hrk, countKey_consCat]
      exact countKey_substRunsL_self k v hvk (r'' :: rest)
    · simp only [substRunsL, if_neg hrk]
      have hIH := countKey_substRunsL_self k v hvk (r' :: r'' :: rest)
      rcases substRunsL_head_shape k v r' (r'' :: rest) with ⟨ys, hys, -⟩ | ⟨⟨z, ys, hys⟩, -⟩
      · rw [hys] at hIH ⊢
        cases ys with
        | nil => rfl
        | cons y ys' =>
          rw [countKey_cons₂ k r r' (y :: ys'), if_neg (by simp), if_neg hrk]
          omega
      · rw [hys] at hIH ⊢
        cases ys with
        | nil => rfl
        | cons y ys' =>
          rw [countKey_cons₂ k r (r' ++ (v ++ z)) (y :: ys'), if_neg (by simp),
            if_neg (append_ne_of_not_occurs v k hvk r' z)]
          omega

/-- One pass never creates interior occurrences of a run u that the value
cannot recreate: the count of u is monotonically non-increasing. -/
theorem countKey_substRunsL_le (k v u : List Char) (hvu : occursIn v u = false) :
    ∀ (runs : List (List Char)), countKey u (substRunsL k v runs) ≤ countKey u runs
  | [] => Nat.le_refl 0
  | [_] => Nat.le_refl 0
  | [_, _] => Nat.le_refl 0
  | r :: r' :: r'' :: rest => by
    have hR := countKey_cons₂ u r r' (r'' :: rest)
    by_cases hrk : r' = k
    · simp only [substRunsL, if_pos hrk, countKey_consCat]
      have hIH := countKey_substRunsL_le k v u hvu (r'' :: rest)
      have hle : countKey u (r'' :: rest) ≤ countKey u (r' :: r'' :: rest) :=
        countKey_le_cons u r' (r'' :: rest)
      omega
    · simp only [substRunsL, if_neg hrk]
      have hIH := countKey_substRunsL_le k v u hvu (r' :: r'' :: rest)
      rcases substRunsL_head_shape k v r' (r'' :: rest) with ⟨ys, hys, -⟩ | ⟨⟨z, ys, hys⟩, -⟩
      · rw [hys] at hIH ⊢
        cases ys with
        | nil => simp [countKey_pair]
        | cons y ys' =>
          have hL := countKey_cons₂ u r r' (y :: ys')
          have hL2 := countKey_cons₂ u r' y ys'
          have hR2 := countKey_cons₂ u r' r'' rest
          simp only [if_neg (by simp : ¬(y :: ys' = [])),
            if_neg (by simp : ¬(r'' :: rest = []))] at hL hR
          omega
      · rw [hys] at hIH ⊢
        cases ys with
        | nil => simp [countKey_pair]
        | cons y ys' =>
          have hm : r' ++ (v ++ z) ≠ u := append_ne_of_not_occurs v u hvu r' z
          have hL := countKey_cons₂ u r (r' ++ (v ++ z)) (y :: ys')
          simp only [if_neg (by simp : ¬(y :: ys' = [])),
            if_neg (by simp : ¬(r'' :: rest = [])), if_neg hm] at hL hR
          omega

/-- Under the separation condition, one pass for the key k preserves every
interior occurrence of any other key u of the key set. -/
theorem countKey_substRunsL_ge (k v u : List Char) (K : List (List Char))
    (hkK : k ∈ K) (hu : u ∈ K) (huk : u ≠ k)
    (hv : ∀ x ∈ K, occursIn v x = false) :
    ∀ (runs : List (List Char)), sepOK K runs = true →
      countKey u runs ≤ countKey u (substRunsL k v runs)
  | [], _ => Nat.le_refl 0
  | [_], _ => Nat.le_refl 0
  | [_, _], _ => Nat.le_refl 0
  | r :: r' :: r'' :: rest, hsep => by
    have hsep1 : sepOK K (r' :: r'' :: rest) = true :=
      ((sepOK_cons_cons K r r' (r'' :: rest)).mp hsep).2
    have hsep2 : sepOK K (r'' :: rest) = true :=
      ((sepOK_cons_cons K r' r'' rest).mp hsep1).2
    have hR := countKey_cons₂ u r r' (r'' :: rest)
    simp only [if_neg (by simp : ¬(r'' :: rest = []))] at hR
    by_cases hrk : r' = k
    · have hru : r' ≠ u := fun he => huk (he ▸ hrk ▸ rfl : u = k)
      simp only [substRunsL, if_pos hrk, countKey_consCat]
      have hIH := countKey_substRunsL_ge k v u K hkK hu huk hv (r'' :: rest) hsep2
      have hkey : countKey u (r' :: r'' :: rest) = countKey u (r'' :: rest) := by
        cases rest with
        | nil => rfl
        | cons y ys =>
          have hr''K : r'' ∉ K := by
            have := ((sepOK_cons_cons K r' r'' (y :: ys)).mp hsep1).1
            intro hmem
            exact this ⟨hrk ▸ hkK, hmem⟩
          have hr''u : r'' ≠ u := fun he => hr''K (he ▸ hu)
          have := countKey_cons₂ u r' r'' (y :: ys)
          simp only [if_neg (by simp : ¬(y :: ys = [])), if_neg hr''u] at this
          omega
      rw [if_neg hru] at hR
      omega
    · simp only [substRunsL, if_neg hrk]
      have hIH := countKey_substRunsL_ge k v u K hkK hu huk hv (r' :: r'' :: rest) hsep1
      rcases substRunsL_head_shape k v r' (r'' :: rest) with
        ⟨ys, hys, hne⟩ | ⟨⟨z, ys, hys⟩, ⟨c, rest₂, hts⟩⟩
      · have hysne : ys ≠ [] := hne (by simp)
        rw [hys] at hIH ⊢
        cases ys with
        | nil => exact absurd rfl hysne
        | cons y ys' =>
          have hL := countKey_cons₂ u r r' (y :: ys')
          simp only [if_neg (by simp : ¬(y :: ys' = []))] at hL
          omega
      · have hr'' : r'' = k := by
          have : r'' :: rest = k :: c :: rest₂ := hts
          exact (List.cons.injEq _ _ _ _ ▸ this).1
        have hr'K : r' ∉ K := by
          have := ((sepOK_cons_cons K r' r'' rest).mp hsep1).1
          intro hmem
          exact this ⟨hmem, hr'' ▸ hkK⟩
        have hru : r' ≠ u := fun he => hr'K (he ▸ hu)
        rw [hys] at hIH ⊢
        rw [if_neg hru] at hR
        cases ys with
        | nil =>
          have hz := countKey_single u (r' ++ (v ++ z))
          omega
        | cons y ys' =>
          have hL := countKey_cons₂ u r (r' ++ (v ++ z)) (y :: ys')
          have hmu : r' ++ (v ++ z) ≠ u :=
            append_ne_of_not_occurs v u (hv u hu) r' z
          simp only [if_neg (by simp : ¬(y :: ys' = [])), if_neg hmu] at hL
          have hL2 := countKey_cons₂ u (r' ++ (v ++ z)) y ys'
          omega

/-- One pass preserves the separation condition when the value cannot
recreate any member of the key set. -/
theorem sepOK_substRunsL (k v : List Char) (K : List (List Char))
    (hv : ∀ x ∈ K, occursIn v x = false) :
    ∀ (runs : List (List Char)), sepOK K runs = true →
      sepOK K (substRunsL k v runs) = true
  | [], _ => rfl
  | [_], _ => rfl
  | [a, b], h => h
  | r :: r' :: r'' :: rest, hsep => by
    have hsep1 : sepOK K (r' :: r'' :: rest) = true :=
      ((sepOK_cons_cons K r r' (r'' :: rest)).mp hsep).2
    have hsep2 : sepOK K (r'' :: rest) = true :=
      ((sepOK_cons_cons K r' r'' rest).mp hsep1).2
    by_cases hrk : r' = k
    · simp only [substRunsL, if_pos hrk]
      have hIH := sepOK_substRunsL k v K hv (r'' :: rest) hsep2
      cases hrec : substRunsL k v (r'' :: rest) with
      | nil => simp [consCat, sepOK_single]
      | cons hh tt =>
        rw [hrec] at hIH
        cases tt with
        | nil => simp [consCat, sepOK_single]
        | cons b t₂ =>
          simp only [consCat]
          rw [sepOK_cons_cons]
          refine ⟨?_, ((sepOK_cons_cons K hh b t₂).mp hIH).2⟩
          intro ⟨hmem, _⟩
          have : (r ++ v) ++ hh = r ++ (v ++ hh) := by simp [List.append_assoc]
          rw [this] at hmem
          exact Bool.false_ne_true
            ((append_ne_of_not_occurs v _ (hv _ hmem) r hh rfl).elim)
    · simp only [substRunsL, if_neg hrk]
      have hIH := sepOK_substRunsL k v K hv (r' :: r'' :: rest) hsep1
      have hrel : ¬(r ∈ K ∧ r' ∈ K) :=
        ((sepOK_cons_cons K r r' (r'' :: rest)).mp hsep).1
      rcases substRunsL_head_shape k v r' (r'' :: rest) with
        ⟨ys, hys, -⟩ | ⟨⟨z, ys, hys⟩, -⟩
      · rw [hys] at hIH ⊢
        rw [sepOK_cons_cons]
        exact ⟨hrel, hIH⟩
      · rw [hys] at hIH ⊢
        rw [sepOK_cons_cons]
        refine ⟨?_, hIH⟩
        intro ⟨_, hmem⟩
        exact (append_ne_of_not_occurs v _ (hv _ hmem) r' z) rfl

/-- One pass keeps all runs percent-free when the value is percent-free. -/
theorem substRunsL_free (k v : List Char) (hv : pct ∉ v) :
    ∀ (runs : List (List Char)), (∀ r ∈ runs, pct ∉ r) →
      ∀ r ∈ substRunsL k v runs, pct ∉ r
  | [], h => by simp [substRunsL]
  | [r], h => by simpa [substRunsL] using h
  | [r, r'], h => by simpa [substRunsL] using h
  | r :: r' :: r'' :: rest, h => by
    have hr : pct ∉ r := h r (by simp)
    have htail : ∀ x ∈ r' :: r'' :: rest, pct ∉ x := fun x hx => h x (by simp [hx])
    have htail2 : ∀ x ∈ r'' :: rest, pct ∉ x := fun x hx =>
      htail x (List.mem_cons_of_mem r' hx)
    by_cases hrk : r' = k
    · simp only [substRunsL, if_pos hrk]
      have hrec := substRunsL_free k v hv (r'' :: rest) htail2
      cases hrecEq : substRunsL k v (r'' :: rest) with
      | nil =>
        intro x hx
        simp only [consCat, hrecEq, List.mem_singleton] at hx
        subst hx
        simp only [List.mem_append]
        rintro (hc | hc)
        · exact hr hc
        · exact hv hc
      | cons hh tt =>
        intro x hx
        rw [hrecEq] at hrec
        simp only [consCat, hrecEq, List.mem_cons] at hx
        rcases hx with hx | hx
        · subst hx
          simp only [List.append_assoc, List.mem_append]
          rintro (hc | hc | hc)
          · exact hr hc
          · exact hv hc
          · exact hrec hh (by simp) hc
        · exact hrec x (by simp [hx])
    · simp only [substRunsL, if_neg hrk]
      intro x hx
      rcases List.mem_cons.mp hx with hx | hx
      · exact hx ▸ hr
      · exact substRunsL_free k v hv (r' :: r'' :: rest) htail x hx

/-- All passes, character level versus run level: applyEntriesC on a join
of percent-free runs is the join of substAll, when keys and values are
percent-free. -/
theorem applyEntriesC_joinRuns :
    ∀ (entries : List (List Char × List Char)) (runs : List (List Char)),
      (∀ r ∈ runs, pct ∉ r) →
      (∀ kv ∈ entries, pct ∉ kv.fst ∧ pct ∉ kv.snd) →
      applyEntriesC entries (joinRuns runs) = joinRuns (substAll entries runs) := by
  intro entries
  induction entries with
  | nil => intro runs _ _; rfl
  | cons kv rest ih =>
    intro runs hruns hk
    obtain ⟨hkf, hvf⟩ := hk kv (by simp)
    have hstep : replaceAll (pct :: kv.fst ++ [pct]) kv.snd (joinRuns runs)
        = joinRuns (substRunsL kv.fst kv.snd runs) := by
      have := replaceAll_joinRuns kv.fst kv.snd hkf runs hruns
      simpa [List.cons_append] using this
    show applyEntriesC rest (replaceAll (pct :: kv.fst ++ [pct]) kv.snd (joinRuns runs))
        = joinRuns (substAll rest (substRunsL kv.fst kv.snd runs))
    rw [hstep]
    exact ih (substRunsL kv.fst kv.snd runs)
      (substRunsL_free kv.fst kv.snd hvf runs hruns)
      (fun kv' h => hk kv' (by simp [h]))

/-- The string-level override pass agrees with the character-level pass. -/
theorem foldl_params_data (params : List (String × String)) :
    ∀ (s : String),
      (params.foldl (fun acc kv => strReplaceAll (placeholder kv.fst) kv.snd acc) s).data
        = (params.map entryData).foldl
            (fun acc kv => replaceAll (pct :: kv.fst ++ [pct]) kv.snd acc) s.data := by
  induction params with
  | nil => intro s; rfl
  | cons kv rest ih =>
    intro s
    simp only [List.foldl_cons, List.map_cons]
    rw [ih]
    rfl

/-- The string-level configuration pass agrees with the character-level
pass. -/
theorem foldl_config_data (config : GlobalConfig) :
    ∀ (s : String),
      (config.foldl (fun acc kc => strReplaceAll (placeholder kc.fst) kc.snd.value acc) s).data
        = (config.map configEntryData).foldl
            (fun acc kv => replaceAll (pct :: kv.fst ++ [pct]) kv.snd acc) s.data := by
  induction config with
  | nil => intro s; rfl
  | cons kc rest ih =>
    intro s
    simp only [List.foldl_cons, List.map_cons]
    rw [ih]
    rfl

/-- processSnippetCode is exactly the character-level pass sequence of all
override entries followed by all configuration entries. -/
theorem processSnippetCode_data (code : String) (params : List (String × String))
    (config : GlobalConfig) :
    (processSnippetCode code params config).data
      = applyEntriesC (allEntries params config) code.data := by
  show (config.foldl _ (params.foldl _ code)).data = _
  rw [foldl_config_data, allEntries, applyEntriesC, List.foldl_append]
  congr 1
  exact foldl_params_data params code

/-- The master invariant of the full pass sequence: separation is kept,
every processed key ends with zero interior occurrences, and the interior
occurrence count of every unprocessed member of the key set is
unchanged. -/
theorem substAll_invariant (K : List (List Char)) :
    ∀ (entries : List (List Char × List Char)) (runs : List (List Char)),
      (∀ kv ∈ entries, kv.fst ∈ K) →
      (∀ kv ∈ entries, ∀ u ∈ K, occursIn kv.snd u = false) →
      sepOK K runs = true →
      sepOK K (substAll entries runs) = true ∧
      (∀ kv ∈ entries, countKey kv.fst (substAll entries runs) = 0) ∧
      (∀ u ∈ K, u ∉ entries.map Prod.fst →
        countKey u runs ≤ countKey u (substAll entries runs)) ∧
      (∀ u ∈ K, countKey u (substAll entries runs) ≤ countKey u runs) := by
  intro entries
  induction entries with
  | nil =>
    intro runs _ _ hsep
    exact ⟨hsep, by simp, fun u _ _ => Nat.le_refl _, fun u _ => Nat.le_refl _⟩
  | cons kv rest ih =>
    intro runs hkK hval hsep
    have hkvK : kv.fst ∈ K := hkK kv (by simp)
    have hkvVal : ∀ u ∈ K, occursIn kv.snd u = false := hval kv (by simp)
    have hsep' : sepOK K (substRunsL kv.fst kv.snd runs) = true :=
      sepOK_substRunsL kv.fst kv.snd K hkvVal runs hsep
    have hstep : substAll (kv :: rest) runs
        = substAll rest (substRunsL kv.fst kv.snd runs) := rfl
    obtain ⟨ih1, ih2, ih3, ih4⟩ := ih (substRunsL kv.fst kv.snd runs)
      (fun kv' h => hkK kv' (by simp [h]))
      (fun kv' h => hval kv' (by simp [h])) hsep'
    rw [hstep]
    refine ⟨ih1, ?_, ?_, ?_⟩
    · intro kv' hkv'
      rcases List.mem_cons.mp hkv' with hkv' | hkv'
      · subst hkv'
        have h0 : countKey kv'.fst (substRunsL kv'.fst kv'.snd runs) = 0 :=
          countKey_substRunsL_self kv'.fst kv'.snd (hkvVal kv'.fst hkvK) runs
        have hle := ih4 kv'.fst hkvK
        omega
      · exact ih2 kv' hkv'
    · intro u hu hnot
      have hunot : u ∉ rest.map Prod.fst := fun h => hnot (by simp [h])
      have huk : u ≠ kv.fst := fun he => hnot (by simp [he])
      have h₁ : countKey u runs ≤ countKey u (substRunsL kv.fst kv.snd runs) :=
        countKey_substRunsL_ge kv.fst kv.snd u K hkvK hu huk hkvVal runs hsep
      exact Nat.le_trans h₁ (ih3 u hu hunot)
    · intro u hu
      have h₁ : countKey u (substRunsL kv.fst kv.snd runs) ≤ countKey u runs :=
        countKey_substRunsL_le kv.fst kv.snd u (hkvVal u hu) runs
      exact Nat.le_trans (ih4 u hu) h₁

/-- The configuration header is a nonempty string for a non-empty table. -/
theorem configLine_ne_empty (config : GlobalConfig) (h : config ≠ []) :
    configLine config ≠ "" := by
  simp only [configLine, if_neg h]
  intro he
  have hd := congrArg String.data he
  rw [String.data_append] at hd
  simp at hd

/-- The configuration header of an empty table is the empty string. -/
theorem configLine_empty : configLine [] = "" := rfl

/-- The emitted parts are the preamble followed by the blueprint blocks in
sorted order. -/
theorem generateScriptParts_eq (ts : String) (bps : List Blueprint)
    (config : GlobalConfig) :
    generateScriptParts ts bps config
      = scriptPreamble ts config ++ ((sortBlueprints bps).map (blockOf config)).flatten := by
  by_cases h : config = []
  · subst h
    simp [generateScriptParts, scriptPreamble, configLine_empty, List.filterMap_append,
      Function.comp_def, List.filterMap_map, List.filterMap_some]
  · have hne := configLine_ne_empty config h
    have hne2 : "var config = " ++ configJson config ++ ";" ≠ "" := by
      simpa [configLine, if_neg h] using hne
    simp [generateScriptParts, scriptPreamble, if_neg h, hne, List.filterMap_append,
      configLine, if_neg h, if_neg hne2, Function.comp_def, List.filterMap_map,
      List.filterMap_some]

/-- Inserting by order is a permutation of consing. -/
theorem insertByOrder_perm (b : Blueprint) :
    ∀ (l : List Blueprint), List.Perm (insertByOrder b l) (b :: l) := by
  intro l
  induction l with
  | nil => exact List.Perm.refl _
  | cons c cs ih =>
    simp only [insertByOrder]
    split
    · exact List.Perm.refl _
    · exact List.Perm.trans (List.Perm.cons c ih) (List.Perm.swap b c cs)

/-- The stable sort is a permutation of the input. -/
theorem sortBlueprints_perm :
    ∀ (l : List Blueprint), List.Perm (sortBlueprints l) l := by
  intro l
  induction l with
  | nil => exact List.Perm.refl _
  | cons b bs ih =>
    exact List.Perm.trans (insertByOrder_perm b (sortBlueprints bs))
      (List.Perm.cons b ih)

/-- Inserting by order preserves sortedness by order. -/
theorem insertByOrder_sorted (b : Blueprint) :
    ∀ (l : List Blueprint),
      List.Pairwise (fun x y => x.order ≤ y.order) l →
      List.Pairwise (fun x y => x.order ≤ y.order) (insertByOrder b l) := by
  intro l
  induction l with
  | nil => intro _; simp [insertByOrder]
  | cons c cs ih =>
    intro h
    rw [List.pairwise_cons] at h
    obtain ⟨hc, hcs⟩ := h
    simp only [insertByOrder]
    split
    · rename_i hbc
      rw [List.pairwise_cons]
      refine ⟨?_, List.pairwise_cons.mpr ⟨hc, hcs⟩⟩
      intro x hx
      rcases List.mem_cons.mp hx with hx | hx
      · exact hx ▸ hbc
      · exact Nat.le_trans hbc (hc x hx)
    · rename_i hbc
      have hcb : c.order ≤ b.order := Nat.le_of_not_le hbc
      rw [List.pairwise_cons]
      refine ⟨?_, ih hcs⟩
      intro x hx
      have hx' : x = b ∨ x ∈ cs :=
        List.mem_cons.mp ((insertByOrder_perm b cs).mem_iff.mp hx)
      rcases hx' with hx' | hx'
      · exact hx' ▸ hcb
      · exact hc x hx'

/-- The stable sort output is sorted by order. -/
theorem sortBlueprints_sorted :
    ∀ (l : List Blueprint),
      List.Pairwise (fun x y => x.order ≤ y.order) (sortBlueprints l) := by
  intro l
  induction l with
  | nil => simp [sortBlueprints]
  | cons b bs ih => exact insertByOrder_sorted b (sortBlueprints bs) ih

/-- Renumbering writes consecutive order values starting at n. -/
theorem reindexFrom_map_order (n : Nat) :
    ∀ (xs : List Blueprint),
      (reindexFrom n xs).map (fun bp => bp.order) = List.range' n xs.length := by
  intro xs
  induction xs generalizing n with
  | nil => rfl
  | cons bp bps ih =>
    simp only [reindexFrom, List.map_cons, List.length_cons, List.range'_succ]
    exact congrArg (n :: ·) (ih (n + 1))

/-- Renumbering only touches order fields. -/
theorem reindexFrom_map_erase (n : Nat) :
    ∀ (xs : List Blueprint),
      (reindexFrom n xs).map eraseOrder = xs.map eraseOrder := by
  intro xs
  induction xs generalizing n with
  | nil => rfl
  | cons bp bps ih =>
    simp only [reindexFrom, List.map_cons]
    exact congrArg (eraseOrder bp :: ·) (ih (n + 1))

/-- Rebuilding a string from its characters is the identity. -/
theorem mk_data (s : String) : String.mk s.data = s := by cases s; rfl

/-- A nonempty pattern that does not occur leaves the text unchanged. -/
theorem replaceAll_not_occurs (pat rep : List Char) (_hp : pat ≠ []) :
    ∀ (s : List Char), occursIn pat s = false → replaceAll pat rep s = s := by
  intro s
  induction s with
  | nil => intro _; exact replaceAll_nil pat rep
  | cons c cs ih =>
    intro h
    simp only [occursIn, Bool.or_eq_false_iff] at h
    obtain ⟨h₁, h₂⟩ := h
    rw [replaceAll_cons_neg _ _ _ _ (fun hc => by rw [h₁] at hc; exact absurd hc.1 (by simp)),
      ih h₂]

/-- A placeholder that does not occur in a string leaves it unchanged
under one string-level pass. -/
theorem strReplaceAll_no_occ (k v s : String)
    (h : containsSub s (placeholder k) = false) :
    strReplaceAll (placeholder k) v s = s := by
  have h' : occursIn (pct :: k.data ++ [pct]) s.data = false := h
  show String.mk (replaceAll (pct :: k.data ++ [pct]) v.data s.data) = s
  rw [replaceAll_not_occurs _ _ (by simp) s.data h', mk_data]

/-- C1: for every non-empty Blueprint List, the generated parts are the
preamble followed by exactly one three-line block per blueprint: the
blocks of a sorted permutation of the list, ascending in the order field,
each block being the name-and-description comment, the processed code
body, and a blank separator. -/
theorem c1_blocks_sorted (ts : String) (bps : List Blueprint) (config : GlobalConfig)
    (_hne : bps ≠ []) :
    generateScriptParts ts bps config
        = scriptPreamble ts config ++ ((sortBlueprints bps).map (blockOf config)).flatten
      ∧ List.Pairwise (fun x y => x.order ≤ y.order) (sortBlueprints bps)
      ∧ List.Perm (sortBlueprints bps) bps
      ∧ ∀ bp ∈ sortBlueprints bps,
          blockOf config bp
            = ["// " ++ bp.snippet.name ++ " - " ++ bp.snippet.description,
               processSnippetCode bp.snippet.code bp.customParams config, ""] :=
  ⟨generateScriptParts_eq ts bps config, sortBlueprints_sorted bps,
   sortBlueprints_perm bps, fun _ _ => rfl⟩

/-- Witness for C1 at a concrete one-element list. -/
theorem c1_blocks_sorted_witness :
    generateScriptParts "T" [⟨"b1", demoSnippet "s", 0, []⟩] []
      = scriptPreamble "T" []
        ++ ((sortBlueprints [⟨"b1", demoSnippet "s", 0, []⟩]).map (blockOf [])).flatten :=
  (c1_blocks_sorted "T" [⟨"b1", demoSnippet "s", 0, []⟩] [] (by decide)).1

/-- C2 counterexample: with the override mapping a to Q on the template
percent percent a percent x percent, the placeholder of the absent key x
overlaps the replaced occurrence of the placeholder of a, so the output
no longer contains the placeholder of x: the claim that occurrences of
keys in neither mapping always remain unchanged fails as stated. -/
theorem c2_counterexample :
    processSnippetCode "%%a%x%" [("a", "Q")] [] = "%Qx%"
      ∧ containsSub "%%a%x%" (placeholder "x") = true
      ∧ containsSub (processSnippetCode "%%a%x%" [("a", "Q")] []) (placeholder "x") = false
      ∧ ("x" : String) ≠ "a" := by decide

/-- C2 amended: when placeholder occurrences do not overlap and cannot be
recreated — the template is a join of percent-free runs, keys are
nonempty and percent-free, values are percent-free and contain no key of
interest, and no two adjacent runs both belong to the key set extended
with the absent key w — substitution rewrites the template to exactly the
run-level substitution that replaces every occurrence of each present key
by its value, every present key ends with zero remaining placeholder
occurrences, and every placeholder occurrence of the absent key w
survives into the output. -/
theorem c2_substitution_nonoverlap (params : List (String × String))
    (config : GlobalConfig) (w : String) (runs : List (List Char))
    (hruns : ∀ r ∈ runs, pct ∉ r)
    (hkeys : ∀ kv ∈ allEntries params config,
      kv.fst ≠ [] ∧ pct ∉ kv.fst ∧ pct ∉ kv.snd)
    (hsep : sepOK (w.data :: (allEntries params config).map Prod.fst) runs = true)
    (hval : ∀ kv ∈ allEntries params config,
      ∀ u ∈ w.data :: (allEntries params config).map Prod.fst,
        occursIn kv.snd u = false)
    (hw : w.data ∉ (allEntries params config).map Prod.fst) :
    (processSnippetCode (String.mk (joinRuns runs)) params config).data
        = joinRuns (substAll (allEntries params config) runs)
      ∧ (∀ kv ∈ allEntries params config,
          countKey kv.fst (substAll (allEntries params config) runs) = 0)
      ∧ countKey w.data runs
          ≤ countKey w.data (substAll (allEntries params config) runs) := by
  have hjoin : (processSnippetCode (String.mk (joinRuns runs)) params config).data
      = joinRuns (substAll (allEntries params config) runs) := by
    rw [processSnippetCode_data]
    exact applyEntriesC_joinRuns (allEntries params config) runs hruns
      (fun kv h => ⟨(hkeys kv h).2.1, (hkeys kv h).2.2⟩)
  have hinv := substAll_invariant (w.data :: (allEntries params config).map Prod.fst)
    (allEntries params config) runs
    (fun kv h => List.mem_cons_of_mem _ (List.mem_map_of_mem Prod.fst h))
    hval hsep
  exact ⟨hjoin, hinv.2.1, hinv.2.2.1 w.data (List.mem_cons_self _ _) hw⟩

/-- Witness for C2 at the template f percent x percent dash percent w
percent e with override x to 1. -/
theorem c2_substitution_witness :
    countKey "w".data [['f'], ['x'], ['-'], ['w'], ['e']]
      ≤ countKey "w".data
          (substAll (allEntries [("x", "1")] []) [['f'], ['x'], ['-'], ['w'], ['e']]) :=
  (c2_substitution_nonoverlap [("x", "1")] [] "w" [['f'], ['x'], ['-'], ['w'], ['e']]
    (by decide) (by decide) (by decide) (by decide) (by decide)).2.2

/-- C3: substitution is two-pass, the override pass strictly before the
configuration pass (first conjunct, the pass structure of the code), so
an override value containing the placeholder of a configuration key has
that placeholder replaced by the configuration value in the second pass
(second conjunct, for any percent-free surrounding text). -/
theorem c3_two_pass_order :
    (∀ (code : String) (params : List (String × String)) (config : GlobalConfig),
      processSnippetCode code params config
        = config.foldl (fun acc kc => strReplaceAll (placeholder kc.fst) kc.snd.value acc)
            (params.foldl (fun acc kv => strReplaceAll (placeholder kv.fst) kv.snd acc)
              code))
    ∧ ∀ (p c : String) (A B : List Char) (V nm lb : String),
        p.data ≠ [] → pct ∉ p.data → c.data ≠ [] → pct ∉ c.data →
        (∀ ch ∈ A, ch ≠ pct) → (∀ ch ∈ B, ch ≠ pct) →
        processSnippetCode (placeholder p)
            [(p, String.mk (A ++ (pct :: (c.data ++ (pct :: B)))))] [(c, ⟨nm, lb, V⟩)]
          = String.mk (A ++ V.data ++ B) := by
  refine ⟨fun _ _ _ => rfl, ?_⟩
  intro p c A B V nm lb _hp _hpf _hc _hcf hA hB
  have hinner_data : replaceAll (pct :: (p.data ++ [pct]))
      (A ++ (pct :: (c.data ++ (pct :: B)))) (pct :: (p.data ++ [pct]))
      = A ++ (pct :: (c.data ++ (pct :: B))) := by
    rw [replaceAll_cons_pos (pct :: (p.data ++ [pct])) (A ++ (pct :: (c.data ++ (pct :: B))))
      pct (p.data ++ [pct]) (by simp [isPrefixOf_eq_true_iff]) (by simp)]
    have hlen : (pct :: (p.data ++ [pct])).length - 1 = (p.data ++ [pct]).length := by
      simp
    rw [hlen, List.drop_length, replaceAll_nil, List.append_nil]
  have hpre : (pct :: (c.data ++ [pct])).isPrefixOf (pct :: (c.data ++ pct :: B)) = true := by
    simp only [List.isPrefixOf, Bool.and_eq_true, beq_self_eq_true, true_and]
    rw [List.append_cons c.data pct B]
    exact (isPrefixOf_eq_true_iff _ _).mpr (List.prefix_append _ _)
  have hdrop : (c.data ++ pct :: B).drop ((pct :: (c.data ++ [pct])).length - 1) = B := by
    rw [List.append_cons c.data pct B]
    have hlen : (pct :: (c.data ++ [pct])).length - 1 = (c.data ++ [pct]).length := by
      simp
    rw [hlen, List.drop_left]
  have houter_data : replaceAll (pct :: (c.data ++ [pct])) V.data
      (A ++ pct :: (c.data ++ pct :: B)) = A ++ V.data ++ B := by
    rw [replaceAll_skip (c.data ++ [pct]) V.data A _ hA]
    rw [replaceAll_cons_pos (pct :: (c.data ++ [pct])) V.data pct (c.data ++ pct :: B)
      hpre (by simp)]
    rw [hdrop, replaceAll_free _ V.data B hB]
    simp [List.append_assoc]
  have hinner : strReplaceAll (placeholder p)
      (String.mk (A ++ (pct :: (c.data ++ (pct :: B))))) (placeholder p)
      = String.mk (A ++ (pct :: (c.data ++ (pct :: B)))) := congrArg String.mk hinner_data
  show strReplaceAll (placeholder c) V
      (strReplaceAll (placeholder p) (String.mk (A ++ (pct :: (c.data ++ (pct :: B)))))
        (placeholder p)) = _
  rw [hinner]
  show String.mk (replaceAll (pct :: (c.data ++ [pct])) V.data
      (A ++ pct :: (c.data ++ pct :: B))) = String.mk (A ++ V.data ++ B)
  exact congrArg String.mk houter_data

/-- Witness for C3 at a concrete override value holding a configuration
placeholder. -/
theorem c3_two_pass_witness :
    processSnippetCode (placeholder "p")
        [("p", String.mk (['('] ++ (pct :: ("c".data ++ (pct :: [')'])))))]
        [("c", ⟨"n", "l", "9"⟩)]
      = String.mk (['('] ++ "9".data ++ [')']) :=
  c3_two_pass_order.2 "p" "c" ['('] [')'] "9" "n" "l"
    (by decide) (by decide) (by decide) (by decide) (by decide) (by decide)

/-- C4 counterexample: a snippet with declared parameter x, an empty
override mapping and empty configuration renders its template verbatim —
the placeholder of x is still present and is not replaced by the empty
string, refuting the claimed empty substitution for absent keys. -/
theorem c4_counterexample :
    processSnippetCode "foo(%x%)" [] [] = "foo(%x%)"
      ∧ containsSub (processSnippetCode "foo(%x%)" [] []) (placeholder "x") = true
      ∧ processSnippetCode "foo(%x%)" [] [] ≠ "foo()" := by decide

/-- C4 amended: a declared parameter absent from the override mapping
yields no substitution at all: its occurrences stay verbatim.  Whenever no
placeholder of any present override or configuration key occurs in the
template, the rendered block is the template unchanged — in particular
every occurrence of an absent parameter remains, rather than becoming the
empty string. -/
theorem c4_absent_params_verbatim (code : String) (params : List (String × String))
    (config : GlobalConfig)
    (hp : ∀ kv ∈ params, containsSub code (placeholder kv.fst) = false)
    (hc : ∀ kc ∈ config, containsSub code (placeholder kc.fst) = false) :
    processSnippetCode code params config = code := by
  have h₁ : params.foldl
      (fun acc kv => strReplaceAll (placeholder kv.fst) kv.snd acc) code = code := by
    induction params with
    | nil => rfl
    | cons kv rest ih =>
      simp only [List.foldl_cons]
      rw [strReplaceAll_no_occ kv.fst kv.snd code (hp kv (by simp))]
      exact ih (fun kv' h => hp kv' (by simp [h]))
  show config.foldl _ (params.foldl _ code) = code
  rw [h₁]
  induction config with
  | nil => rfl
  | cons kc rest ih =>
    simp only [List.foldl_cons]
    rw [strReplaceAll_no_occ kc.fst kc.snd.value code (hc kc (by simp))]
    exact ih (fun kc' h => hc kc' (by simp [h]))

/-- Witness for C4: the declared parameter x is absent from the override
mapping and the template renders verbatim. -/
theorem c4_absent_params_witness :
    processSnippetCode "foo(%x%)" [("y", "2")] [("z", ⟨"n", "l", "3"⟩)] = "foo(%x%)" :=
  c4_absent_params_verbatim "foo(%x%)" [("y", "2")] [("z", ⟨"n", "l", "3"⟩)]
    (by decide) (by decide)

/-- C5: the configuration header region of the emitted parts: with an
empty table the header string is empty and no header declaration part is
emitted; with a non-empty table exactly one header part — the var-config
declaration serializing the table — is emitted, positioned after the
fixed banner lines and before every blueprint block. -/
theorem c5_config_header (ts : String) (bps : List Blueprint) (config : GlobalConfig) :
    generateScriptParts ts bps config
        = (["// Generated Script from Blueprint Generator", "// Generated on: " ++ ts, ""]
            ++ (if config = [] then [""] else [configLine config, ""]))
          ++ ((sortBlueprints bps).map (blockOf config)).flatten
      ∧ (config = [] → configLine config = "")
      ∧ (config ≠ [] →
          configLine config = "var config = " ++ configJson config ++ ";"
            ∧ configLine config ≠ "") := by
  refine ⟨?_, fun h => h ▸ configLine_empty, fun h =>
    ⟨by simp [configLine, if_neg h], configLine_ne_empty config h⟩⟩
  rw [generateScriptParts_eq]
  rfl

/-- Witness for C5 at an empty and at a one-variable table. -/
theorem c5_config_header_witness :
    configLine [] = "" ∧ configLine [("var1", ⟨"n", "l", "v"⟩)] ≠ "" :=
  ⟨(c5_config_header "T" [] []).2.1 rfl,
   ((c5_config_header "T" [] [("var1", ⟨"n", "l", "v"⟩)]).2.2 (by decide)).2⟩

/-- C6: generating with an empty Blueprint List returns the state
unchanged together with the destructive No-Blueprints notice, so
generatedScript and syntaxErrors retain their prior values; with a
non-empty list generation always proceeds: the script and its warning
list are written to the state and the notice is not the rejection notice,
for every configuration, in particular the empty table. -/
theorem c6_empty_rejected (ts : String) (s : AppState) :
    (s.blueprints = [] →
      generateScriptStep ts s
        = (s, ⟨"No Blueprints", "Add some blueprints to generate a script.", true⟩))
    ∧ (s.blueprints ≠ [] →
        (generateScriptStep ts s).fst.generatedScript
            = generateScript ts s.blueprints s.globalConfig
          ∧ (generateScriptStep ts s).fst.syntaxErrors
            = validateSyntax (generateScript ts s.blueprints s.globalConfig)
          ∧ (generateScriptStep ts s).snd.title ≠ "No Blueprints") := by
  constructor
  · intro h
    simp [generateScriptStep, if_pos h]
  · intro h
    simp only [generateScriptStep, if_neg h]
    refine ⟨trivial, trivial, ?_⟩
    split
    · decide
    · decide

/-- Witness for C6 at a concrete empty and non-empty state. -/
theorem c6_empty_rejected_witness :
    generateScriptStep "T" ⟨[], [], "old", ["w"]⟩
        = (⟨[], [], "old", ["w"]⟩,
           ⟨"No Blueprints", "Add some blueprints to generate a script.", true⟩)
      ∧ (generateScriptStep "T" ⟨[⟨"b1", demoSnippet "s", 0, []⟩], [], "", []⟩).snd.title
          ≠ "No Blueprints" :=
  ⟨(c6_empty_rejected "T" ⟨[], [], "old", ["w"]⟩).1 rfl,
   ((c6_empty_rejected "T" ⟨[⟨"b1", demoSnippet "s", 0, []⟩], [], "", []⟩).2
     (by decide)).2.2⟩

/-- C7: for valid indices, reorder moves the element at the drag index to
the hover index — the sequence with order fields erased equals
erase-then-insert — and rewrites every order field to its array index, so
positions afterwards are the dense sequence 0..n-1 in array order; a drop
at the same index is a no-op, leaving array and position fields
unchanged. -/
theorem c7_reorder_dense (l : List Blueprint) (i j : Nat)
    (hi : i < l.length) (hj : j < l.length) :
    (reorderBlueprints i j l).map (fun bp => bp.order) = List.range l.length
      ∧ (reorderBlueprints i j l).map eraseOrder
          = ((l.eraseIdx i).insertIdx j l[i]).map eraseOrder
      ∧ handleDrop i i l = l := by
  have hget : l[i]? = some l[i] := List.getElem?_eq_getElem hi
  have he := List.length_eraseIdx_add_one hi
  have hlen : ((l.eraseIdx i).insertIdx j l[i]).length = l.length := by
    rw [List.length_insertIdx _ _ (by omega)]
    omega
  refine ⟨?_, ?_, by simp [handleDrop]⟩
  · simp only [reorderBlueprints, hget]
    rw [reindexFrom_map_order, hlen, List.range_eq_range']
  · simp only [reorderBlueprints, hget]
    exact reindexFrom_map_erase 0 _

/-- Witness for C7 on a two-element list with stale order fields. -/
theorem c7_reorder_witness :
    (reorderBlueprints 0 1
        [⟨"a", demoSnippet "s", 5, []⟩, ⟨"b", demoSnippet "t", 7, []⟩]).map
      (fun bp => bp.order)
      = List.range 2 :=
  (c7_reorder_dense [⟨"a", demoSnippet "s", 5, []⟩, ⟨"b", demoSnippet "t", 7, []⟩]
    0 1 (by decide) (by decide)).1

/-- C8 counterexample: a name of one space trims to empty, yet the add is
accepted and the catalog changes, because the code tests plain string
emptiness without trimming — the claimed rejection for names empty after
trimming does not happen. -/
theorem c8_counterexample :
    (addCustomSnippet ⟨" ", "d", "Custom", "console.log(1)", ""⟩ "id1" []).snd = true
      ∧ String.mk (trimChars " ".data) = ""
      ∧ (addCustomSnippet ⟨" ", "d", "Custom", "console.log(1)", ""⟩ "id1" []).fst
          ≠ [] := by
  decide

/-- C8 amended: the add fails with the catalog unchanged exactly when the
name or the code is the empty string, without trimming; on success the
snippet is appended and marked custom, its declared parameter list the
comma-split of the input with entries trimmed, empty entries discarded
and order preserved; the input a-comma-space-comma-b yields exactly the
parameters a and b. -/
theorem c8_add_custom (form : NewSnippetForm) (freshId : String)
    (catalog : List Snippet) :
    ((form.name = "" ∨ form.code = "") →
      addCustomSnippet form freshId catalog = (catalog, false))
    ∧ (form.name ≠ "" → form.code ≠ "" →
        addCustomSnippet form freshId catalog
          = (catalog ++ [⟨freshId, form.name, form.description, form.category,
              form.code, splitParams form.parameters, true⟩], true))
    ∧ splitParams "a, ,b" = ["a", "b"] := by
  refine ⟨fun h => ?_, fun h1 h2 => ?_, by decide⟩
  · unfold addCustomSnippet
    rw [if_pos h]
  · unfold addCustomSnippet
    rw [if_neg (not_or.mpr ⟨h1, h2⟩)]

/-- Witness for C8: the empty name is rejected with the catalog unchanged
and the Log snippet is appended with parameters a and b. -/
theorem c8_add_custom_witness :
    addCustomSnippet ⟨"", "", "Custom", "console.log(1)", ""⟩ "id1" [] = ([], false)
      ∧ addCustomSnippet ⟨"Log", "", "Custom", "console.log(1)", "a, ,b"⟩ "id2" []
          = ([⟨"id2", "Log", "", "Custom", "console.log(1)",
              splitParams "a, ,b", true⟩], true) :=
  ⟨(c8_add_custom ⟨"", "", "Custom", "console.log(1)", ""⟩ "id1" []).1 (Or.inl rfl),
   (c8_add_custom ⟨"Log", "", "Custom", "console.log(1)", "a, ,b"⟩ "id2" []).2.1
     (by decide) (by decide)⟩

/-- C9: the warning list is always an ordered sublist of the four fixed
warnings in check order — curly braces, parentheses, function spacing, if
spacing; any input with balanced braces, balanced parentheses and neither
forbidden substring yields the empty list; and the one-unmatched-brace
input yields Mismatched curly braces but not Mismatched parentheses. -/
theorem c9_validate_order (code : String) :
    List.Sublist ( validateSyntax code)
        ["Mismatched curly braces", "Mismatched parentheses",
         "Missing space after function keyword", "Missing space after if keyword"]
      ∧ (countChar lbrace code = countChar rbrace code →
          countChar '(' code = countChar ')' code →
          containsSub code "function(" = false →
          containsSub code "if(" = false →
          validateSyntax code = [])
      ∧ "Mismatched curly braces" ∈ validateSyntax "\x7b \x7b \x7d "
      ∧ "Mismatched parentheses" ∉ validateSyntax "\x7b \x7b \x7d " := by
  refine ⟨?_, ?_, by decide, by decide⟩
  · unfold validateSyntax
    split_ifs <;> decide
  · intro h1 h2 h3 h4
    unfold validateSyntax
    simp [h1, h2, h3, h4]

/-- Witness for C9 on a clean input. -/
theorem c9_validate_witness : validateSyntax "abc" = [] :=
  (c9_validate_order "abc").2.1 (by decide) (by decide) (by decide) (by decide)

/-- C10: after Add, Add, Remove of the first entry, Add, two distinct
blueprints (ids b2 and b3) hold the same position value 1, and the
generator's stable sort leaves the array order unchanged on this tie, so
their relative output order is decided by array order, not by position. -/
theorem c10_duplicate_positions :
    dupOrderState.map (fun bp => bp.order) = [1, 1]
      ∧ dupOrderState.map (fun bp => bp.id) = ["b2", "b3"]
      ∧ sortBlueprints dupOrderState = dupOrderState := by
  decide

end ScriptGen
